import Mathlib

/-
Verification of the statistics/binning core of facebookresearch/cumbiostats,
file codes/disjoint_weighted.py, against its natural-language specification.

The Python code is shallowly embedded over exact rationals (ℚ): every float
becomes a ℚ, numpy arrays become `List ℚ`, and the imperative loops become
structural recursions that mirror the source loops step by step.  Plotting
calls (matplotlib) are pure I/O and excluded, as the spec directs.
-/

namespace CumBioStats

/-! ### mergesorted (disjoint_weighted.py lines 93-124)

Combines two sorted arrays `a` and `b` into one sorted array, tagging each
entry with its origin (`false` for `a`, `true` for `b`, matching the source's
0/1 tags in array `d`) and with its index into the originating array (the
source's array `e`).  The counters `ia`, `ib` are the source's two pointers. -/

def mergesortedAux : List ℚ → List ℚ → ℕ → ℕ → List (ℚ × Bool × ℕ)
  | [], [], _, _ => []
  | [], y :: b, ia, ib => (y, true, ib) :: mergesortedAux [] b ia (ib + 1)
  | x :: a, [], ia, ib => (x, false, ia) :: mergesortedAux a [] (ia + 1) ib
  | x :: a, y :: b, ia, ib =>
      if x < y then (x, false, ia) :: mergesortedAux a (y :: b) (ia + 1) ib
      else (y, true, ib) :: mergesortedAux (x :: a) b ia (ib + 1)
  termination_by a b _ _ => a.length + b.length

def mergesorted (a b : List ℚ) : List (ℚ × Bool × ℕ) := mergesortedAux a b 0 0

/-- Origin tags and indices of the merged sequence: the source's arrays
`d` and `e`, kept as pairs `(d k, e k)`. -/
def mergedTags (s0 s1 : List ℚ) : List (Bool × ℕ) := (mergesorted s0 s1).map Prod.snd

/-- The source's `d[0]`: origin tag of the first merged entry. -/
def firstTag (s0 s1 : List ℚ) : Bool := ((mergedTags s0 s1).headD (false, 0)).1

/-! ### binvalues (lines 126-147) and aggvalues (lines 149-169)

`binvalues` bins the weighted average of values of `vals` over each maximal
run of consecutive entries of the merged sequence whose tag equals `key`;
weights come from `wts` (the source's `w[key]`).  The recursion carries the
open bin's weighted sum `cur` (the source's `b[-1]`), its accumulated weight
`winbin`, the finished bins `fin`, and whether the previously processed tag
equalled `key` (used at the end exactly as the source uses `d[-1] == key`:
divide the open bin if so, else drop the trailing empty bin).

`aggvalues` is the same loop with unit weights (the source counts entries in
`inbin` and divides by the count). -/

def binvaluesGo (vals wts : List ℚ) (key : Bool) :
    List (Bool × ℕ) → ℚ → ℚ → List ℚ → Bool → List ℚ
  | [], cur, winbin, fin, lastKey =>
      if lastKey then fin ++ [cur / winbin] else fin
  | (t, i) :: rest, cur, winbin, fin, _ =>
      if t = key then
        binvaluesGo vals wts key rest (cur + vals.getD i 0 * wts.getD i 0)
          (winbin + wts.getD i 0) fin true
      else if 0 < winbin then
        binvaluesGo vals wts key rest 0 0 (fin ++ [cur / winbin]) false
      else
        binvaluesGo vals wts key rest cur winbin fin false

def binvalues (vals wts : List ℚ) (key : Bool) (de : List (Bool × ℕ)) : List ℚ :=
  binvaluesGo vals wts key de 0 0 [] false

def aggvalues (vals : List ℚ) (key : Bool) (de : List (Bool × ℕ)) : List ℚ :=
  binvaluesGo vals (List.replicate vals.length 1) key de 0 0 [] false

/-! ### Weight normalization in `cumulative` (lines 191-203)

The weights of the two subpopulations are divided by the combined total
`wtot = sum(w[0]) + sum(w[1])`. -/

def normalizeWeightsPair (w0 w1 : List ℚ) : List ℚ × List ℚ :=
  (w0.map (· / (w0.sum + w1.sum)), w1.map (· / (w0.sum + w1.sum)))

/-- Normalized weight list of subpopulation `j` (`false` for 0, `true` for 1). -/
def wnorm (w0 w1 : List ℚ) (j : Bool) : List ℚ :=
  (cond j w1 w0).map (· / (w0.sum + w1.sum))

/-- The source's `b[j]` (lines 210-212): responses of subpopulation `j`
averaged over each run of the merged sequence, weighted by `w[j]`. -/
def bOf (r0 r1 s0 s1 w0 w1 : List ℚ) (j : Bool) : List ℚ :=
  binvalues (cond j r1 r0) (wnorm w0 w1 j) j (mergedTags s0 s1)

/-- The source's `w2[j]` (lines 226-228): plain averages of the normalized
weights of subpopulation `j` over each run of the merged sequence. -/
def w2Of (s0 s1 w0 w1 : List ℚ) (j : Bool) : List ℚ :=
  aggvalues (wnorm w0 w1 j) j (mergedTags s0 s1)

/-! ### Staggering, cumulative sums and summary statistics -/

/-- Interleaves two arrays as in lines 248-253 and 259-264: even positions
from `u`, odd positions from `v`. -/
def stagger (u v : List ℚ) : List ℚ :=
  (List.range (u.length + v.length)).map fun k =>
    if k % 2 = 0 then u.getD (k / 2) 0 else v.getD (k / 2) 0

/-- Running sums, as `np.cumsum`. -/
def cumsum (l : List ℚ) : List ℚ := (l.scanl (· + ·) 0).tail

/-- Maximum of a list as `np.max` (total: returns 0 on the empty list, on
which numpy would raise). -/
def npmax (l : List ℚ) : ℚ := l.foldl max (l.headD 0)

/-- Minimum of a list as `np.min`. -/
def npmin (l : List ℚ) : ℚ := l.foldl min (l.headD 0)

/-- Kuiper statistic (lines 347-348): `max(cumsum ∪ \x7b0\x7d) − min(cumsum ∪ \x7b0\x7d)`,
the 0 being inserted by `np.insert(aa, 0, [0])`. -/
def kuiperOf (aa : List ℚ) : ℚ := npmax (0 :: aa) - npmin (0 :: aa)

/-- Kolmogorov-Smirnov analogue (line 349): `max(abs(cumsum))`. -/
def ksOf (aa : List ℚ) : ℚ := npmax (aa.map (|·|))

/-- Lines 229-267 of `cumulative`: given the run-averaged responses
`bd0 = b[d[0]]` and `bnd = b[1-d[0]]` and run-averaged weights
`w2d0 = w2[d[0]]` and `w2nd = w2[1-d[0]]`, build the alternating midpoint
differences `a0`/`a1`, stagger them into `a`, flip the sign when the first
merged entry came from subpopulation 1 (`d[0] == 1`), stagger the weights
into `w01`, normalize them, and produce the cumulative curve
`(aa, abscissae)` (with `fraction = 1`, so no truncation). -/
def assemble (d0 : Bool) (bd0 bnd w2d0 w2nd : List ℚ) : List ℚ × List ℚ :=
  let la0 := min (bd0.length - 1) bnd.length
  let la1 := min (bd0.length - 1) (bnd.length - 1)
  let a0 := (List.range la0).map fun k =>
    ((bd0.getD k 0 - bnd.getD k 0) + (bd0.getD (k + 1) 0 - bnd.getD k 0)) / 2
  let w0 := (List.range la0).map fun k =>
    (w2d0.getD k 0 + 2 * w2nd.getD k 0 + w2d0.getD (k + 1) 0) / 4
  let a1 := (List.range la1).map fun k =>
    ((bd0.getD (k + 1) 0 - bnd.getD k 0) + (bd0.getD (k + 1) 0 - bnd.getD (k + 1) 0)) / 2
  let w1 := (List.range la1).map fun k =>
    (w2nd.getD k 0 + 2 * w2d0.getD (k + 1) 0 + w2nd.getD (k + 1) 0) / 4
  let a := stagger a0 a1
  let asigned := cond d0 (a.map Neg.neg) a
  let w01 := stagger w0 w1
  let w01sub := w01.map (· / w01.sum)
  (cumsum (List.zipWith (· * ·) asigned w01sub), cumsum w01sub)

/-- Output of the computational part of `cumulative`: the cumulative curve
(ordinates `aa` against abscissae), the Kuiper statistic and the
Kolmogorov-Smirnov statistic.  (The length-scale output and the plot labels
are not modeled; no claim concerns them.) -/
structure CumulOut where
  aa : List ℚ
  abscissae : List ℚ
  kuiper : ℚ
  ks : ℚ

/-- The computation performed by `cumulative` (lines 191-350) after its input
validation, with `fraction = 1` and explicit weights. -/
def cumulativeCore (r0 r1 s0 s1 w0 w1 : List ℚ) : CumulOut :=
  let d0 := firstTag s0 s1
  let p := assemble d0 (bOf r0 r1 s0 s1 w0 w1 d0) (bOf r0 r1 s0 s1 w0 w1 (!d0))
    (w2Of s0 s1 w0 w1 d0) (w2Of s0 s1 w0 w1 (!d0))
  { aa := p.1, abscissae := p.2, kuiper := kuiperOf p.1, ks := ksOf p.1 }

/-! ### Lemmas: swapping the two subpopulations -/

/-- Flip of an origin tag entry. -/
def flipTag (p : Bool × ℕ) : Bool × ℕ := (!p.1, p.2)

theorem mergesortedAux_length (n : ℕ) : ∀ (a b : List ℚ) (ia ib : ℕ),
    a.length + b.length ≤ n →
    (mergesortedAux a b ia ib).length = a.length + b.length := by
  induction n with
  | zero =>
    intro a b ia ib h
    have ha : a = [] := List.eq_nil_of_length_eq_zero (by omega)
    have hb : b = [] := List.eq_nil_of_length_eq_zero (by omega)
    subst ha; subst hb
    simp [mergesortedAux]
  | succ n ih =>
    intro a b ia ib h
    match a, b with
    | [], [] => simp [mergesortedAux]
    | [], y :: b =>
      simp only [mergesortedAux, List.length_cons, List.length_nil]
      have := ih [] b ia (ib + 1) (by simp at h ⊢; omega)
      simp at this ⊢
      omega
    | x :: a, [] =>
      simp only [mergesortedAux, List.length_cons, List.length_nil]
      have := ih a [] (ia + 1) ib (by simp at h ⊢; omega)
      simp at this ⊢
      omega
    | x :: a, y :: b =>
      simp only [mergesortedAux]
      by_cases hxy : x < y
      · simp only [if_pos hxy, List.length_cons]
        have := ih a (y :: b) (ia + 1) ib (by simp at h ⊢; omega)
        simp at this ⊢
        omega
      · simp only [if_neg hxy, List.length_cons]
        have := ih (x :: a) b ia (ib + 1) (by simp at h ⊢; omega)
        simp at this ⊢
        omega

theorem mergesorted_length (a b : List ℚ) :
    (mergesorted a b).length = a.length + b.length :=
  mergesortedAux_length (a.length + b.length) a b 0 0 le_rfl

theorem mergesortedAux_swap (n : ℕ) : ∀ (a b : List ℚ) (ia ib : ℕ),
    a.length + b.length ≤ n →
    (∀ x ∈ a, ∀ y ∈ b, x ≠ y) →
    mergesortedAux b a ib ia
      = (mergesortedAux a b ia ib).map (fun e => (e.1, !e.2.1, e.2.2)) := by
  induction n with
  | zero =>
    intro a b ia ib h _
    have ha : a = [] := List.eq_nil_of_length_eq_zero (by omega)
    have hb : b = [] := List.eq_nil_of_length_eq_zero (by omega)
    subst ha; subst hb
    simp [mergesortedAux]
  | succ n ih =>
    intro a b ia ib h hdisj
    match a, b with
    | [], [] => simp [mergesortedAux]
    | [], y :: b =>
      simp only [mergesortedAux, List.map_cons]
      exact congrArg _ (ih [] b ia (ib + 1) (by simp at h ⊢; omega) (by simp))
    | x :: a, [] =>
      simp only [mergesortedAux, List.map_cons]
      refine congrArg _ (ih a [] (ia + 1) ib (by simp at h ⊢; omega) ?_)
      intro u _ v hv; cases hv
    | x :: a, y :: b =>
      have hne : x ≠ y := hdisj x (by simp) y (by simp)
      by_cases hxy : x < y
      · have hyx : ¬ y < x := lt_asymm hxy
        simp only [mergesortedAux, if_pos hxy, if_neg hyx, List.map_cons]
        refine congrArg _ (ih a (y :: b) (ia + 1) ib (by simp at h ⊢; omega) ?_)
        intro u hu v hv; exact hdisj u (by simp [hu]) v hv
      · have hyx : y < x := lt_of_le_of_ne (le_of_not_lt hxy) (fun hc => hne hc.symm)
        simp only [mergesortedAux, if_neg hxy, if_pos hyx, List.map_cons]
        refine congrArg _ (ih (x :: a) b ia (ib + 1) (by simp at h ⊢; omega) ?_)
        intro u hu v hv; exact hdisj u hu v (by simp [hv])

theorem mergedTags_swap (s0 s1 : List ℚ) (hdisj : ∀ x ∈ s0, ∀ y ∈ s1, x ≠ y) :
    mergedTags s1 s0 = (mergedTags s0 s1).map flipTag := by
  unfold mergedTags mergesorted
  rw [mergesortedAux_swap (s0.length + s1.length) s0 s1 0 0 le_rfl hdisj]
  simp [flipTag]

theorem firstTag_swap (s0 s1 : List ℚ) (h0 : s0 ≠ []) (hdisj : ∀ x ∈ s0, ∀ y ∈ s1, x ≠ y) :
    firstTag s1 s0 = !firstTag s0 s1 := by
  have hlen : (mergedTags s0 s1).length = s0.length + s1.length := by
    unfold mergedTags; rw [List.length_map, mergesorted_length]
  have hne : mergedTags s0 s1 ≠ [] := by
    intro hc
    rw [hc] at hlen
    simp only [List.length_nil] at hlen
    exact h0 (List.eq_nil_of_length_eq_zero (by omega))
  unfold firstTag
  rw [mergedTags_swap s0 s1 hdisj]
  cases hm : mergedTags s0 s1 with
  | nil => exact absurd hm hne
  | cons p rest => simp [flipTag]

theorem binvaluesGo_flip (vals wts : List ℚ) (key : Bool) :
    ∀ (de : List (Bool × ℕ)) (cur winbin : ℚ) (fin : List ℚ) (lk : Bool),
    binvaluesGo vals wts key (de.map flipTag) cur winbin fin lk
      = binvaluesGo vals wts (!key) de cur winbin fin lk := by
  intro de
  induction de with
  | nil => intro cur winbin fin lk; simp [binvaluesGo]
  | cons p rest ih =>
    intro cur winbin fin lk
    obtain ⟨t, i⟩ := p
    simp only [List.map_cons, flipTag, binvaluesGo]
    by_cases h : t = !key
    · have h2 : (!t) = key := by rw [h, Bool.not_not]
      rw [if_pos h, if_pos h2]
      exact ih _ _ _ _
    · have h2 : ¬ (!t) = key := by
        intro hc; apply h; rw [← hc, Bool.not_not]
      rw [if_neg h, if_neg h2]
      by_cases hw : 0 < winbin
      · rw [if_pos hw, if_pos hw]; exact ih _ _ _ _
      · rw [if_neg hw, if_neg hw]; exact ih _ _ _ _

theorem wnorm_swap (w0 w1 : List ℚ) (j : Bool) :
    wnorm w1 w0 j = wnorm w0 w1 (!j) := by
  unfold wnorm
  rw [add_comm w1.sum w0.sum]
  cases j <;> rfl

theorem bOf_swap (r0 r1 s0 s1 w0 w1 : List ℚ) (j : Bool)
    (hdisj : ∀ x ∈ s0, ∀ y ∈ s1, x ≠ y) :
    bOf r1 r0 s1 s0 w1 w0 j = bOf r0 r1 s0 s1 w0 w1 (!j) := by
  unfold bOf binvalues
  rw [mergedTags_swap s0 s1 hdisj, binvaluesGo_flip, wnorm_swap]
  congr 1
  cases j <;> rfl

theorem w2Of_swap (s0 s1 w0 w1 : List ℚ) (j : Bool)
    (hdisj : ∀ x ∈ s0, ∀ y ∈ s1, x ≠ y) :
    w2Of s1 s0 w1 w0 j = w2Of s0 s1 w0 w1 (!j) := by
  unfold w2Of aggvalues
  rw [mergedTags_swap s0 s1 hdisj, binvaluesGo_flip, wnorm_swap]

theorem cumsum_neg (l : List ℚ) : cumsum (l.map Neg.neg) = (cumsum l).map Neg.neg := by
  unfold cumsum
  suffices h : ∀ (x : ℚ), (l.map Neg.neg).scanl (· + ·) (-x) = (l.scanl (· + ·) x).map Neg.neg by
    have h0 := h 0
    rw [neg_zero] at h0
    rw [h0]
    cases l.scanl (· + ·) 0 with
    | nil => rfl
    | cons y rest => rfl
  induction l with
  | nil => intro x; simp
  | cons y rest ih =>
    intro x
    simp only [List.map_cons, List.scanl_cons]
    rw [show -x + -y = -(x + y) by ring, ih]
    rfl

theorem zipWith_mul_neg_left (a w : List ℚ) :
    List.zipWith (· * ·) (a.map Neg.neg) w = (List.zipWith (· * ·) a w).map Neg.neg := by
  rw [List.zipWith_map_left, List.map_zipWith]
  congr 1
  funext x y
  exact neg_mul x y

theorem assemble_flip (d0 : Bool) (bd0 bnd w2d0 w2nd : List ℚ) :
    assemble (!d0) bd0 bnd w2d0 w2nd
      = (((assemble d0 bd0 bnd w2d0 w2nd).1).map Neg.neg,
         (assemble d0 bd0 bnd w2d0 w2nd).2) := by
  cases d0 <;>
    simp only [assemble, Bool.not_false, Bool.not_true, cond_false, cond_true]
  · rw [zipWith_mul_neg_left, cumsum_neg]
  · rw [zipWith_mul_neg_left, cumsum_neg]
    rw [List.map_map]
    have hmm : (Neg.neg ∘ Neg.neg : ℚ → ℚ) = id := by funext x; simp
    rw [hmm, List.map_id]

/-! ### Claim C1: weight normalization in `cumulative` -/

/-- C1 (counterexample): with `w[0] = [1]` and `w[1] = [1]`, the normalization
of `cumulative` (division of every weight by `wtot = sum(w[0]) + sum(w[1])`)
leaves the first subpopulation's weights summing to 1/2, not 1, so the claim
that each of the two arrays sums to 1 (within tolerance 1e-9) is false. -/
theorem cumulative_weight_norm_each_one_cex :
    ¬ |((normalizeWeightsPair [1] [1]).1).sum - 1| ≤ 1 / 1000000000 := by
  have h : ((normalizeWeightsPair [1] [1]).1).sum - 1 = -(1 / 2) := by
    norm_num [normalizeWeightsPair]
  rw [h, abs_neg, abs_of_pos (by norm_num : (0 : ℚ) < 1 / 2)]
  norm_num

/-- C1 (amended): after the normalization of `cumulative`, the two
subpopulation weight arrays sum to 1 jointly (exactly):
`sum(w[0]) + sum(w[1]) = 1`, given positive weights with subpopulation 0
nonempty. -/
theorem cumulative_weight_norm_joint_sum (w0 w1 : List ℚ)
    (hpos0 : ∀ x ∈ w0, 0 < x) (hpos1 : ∀ x ∈ w1, 0 < x) (hne : w0 ≠ []) :
    ((normalizeWeightsPair w0 w1).1).sum + ((normalizeWeightsPair w0 w1).2).sum = 1 := by
  have h0 : 0 < w0.sum := List.sum_pos w0 hpos0 hne
  have h1 : 0 ≤ w1.sum := List.sum_nonneg (fun x hx => le_of_lt (hpos1 x hx))
  have htot : w0.sum + w1.sum ≠ 0 := ne_of_gt (by linarith)
  unfold normalizeWeightsPair
  simp only [div_eq_mul_inv]
  rw [List.sum_map_mul_right, List.sum_map_mul_right, ← add_mul]
  simp only [List.map_id']
  exact mul_inv_cancel₀ htot

theorem cumulative_weight_norm_joint_sum_witness :
    (∀ x ∈ [(2 : ℚ)], 0 < x) ∧ (∀ x ∈ [(3 : ℚ), 5], 0 < x) ∧ ([(2 : ℚ)] ≠ []) ∧
    ((normalizeWeightsPair [2] [3, 5]).1).sum + ((normalizeWeightsPair [2] [3, 5]).2).sum = 1 :=
  ⟨by norm_num, by norm_num, by norm_num,
    cumulative_weight_norm_joint_sum [2] [3, 5] (by norm_num) (by norm_num) (by norm_num)⟩

/-! ### Claim C2: the cumulative-difference curve is antisymmetric -/

/-- C2: for disjoint subpopulations (subpopulation 0 nonempty), running
`cumulative` with the two subpopulations swapped yields the exact pointwise
negation of the cumulative-difference curve, at the same abscissae: the sign
convention is subpopulation 0 minus subpopulation 1 regardless of which
subpopulation's score comes first in the merge (the source flips the sign
when `d[0] == 1`). -/
theorem cumulative_curve_antisymm (r0 r1 s0 s1 w0 w1 : List ℚ)
    (h0 : s0 ≠ []) (hdisj : ∀ x ∈ s0, ∀ y ∈ s1, x ≠ y) :
    (cumulativeCore r1 r0 s1 s0 w1 w0).aa
        = ((cumulativeCore r0 r1 s0 s1 w0 w1).aa).map Neg.neg ∧
    (cumulativeCore r1 r0 s1 s0 w1 w0).abscissae
        = (cumulativeCore r0 r1 s0 s1 w0 w1).abscissae := by
  simp only [cumulativeCore]
  rw [firstTag_swap s0 s1 h0 hdisj]
  simp only [fun j => bOf_swap r0 r1 s0 s1 w0 w1 j hdisj,
    fun j => w2Of_swap s0 s1 w0 w1 j hdisj, Bool.not_not]
  rw [assemble_flip]
  exact ⟨rfl, rfl⟩

theorem cumulative_curve_antisymm_witness :
    (([(1 : ℚ), 3] : List ℚ) ≠ [] ∧ ∀ x ∈ [(1 : ℚ), 3], ∀ y ∈ [(2 : ℚ), 4], x ≠ y) ∧
    (cumulativeCore [0, 1] [1, 0] [2, 4] [1, 3] [1, 1] [1, 1]).aa
        = ((cumulativeCore [1, 0] [0, 1] [1, 3] [2, 4] [1, 1] [1, 1]).aa).map Neg.neg ∧
    (cumulativeCore [0, 1] [1, 0] [2, 4] [1, 3] [1, 1] [1, 1]).abscissae
        = (cumulativeCore [1, 0] [0, 1] [1, 3] [2, 4] [1, 1] [1, 1]).abscissae :=
  ⟨⟨by simp, by norm_num⟩,
    cumulative_curve_antisymm [1, 0] [0, 1] [1, 3] [2, 4] [1, 1] [1, 1]
      (by simp) (by norm_num)⟩

/-! ### Claim C3: nonnegativity of the statistics, Kuiper vs Kolmogorov-Smirnov -/

/-- A cumulative sequence is single-signed when all its entries are
nonnegative or all are nonpositive. -/
def singleSigned (l : List ℚ) : Prop := (∀ x ∈ l, 0 ≤ x) ∨ (∀ x ∈ l, x ≤ 0)

theorem le_foldl_max (l : List ℚ) : ∀ (init : ℚ), init ≤ l.foldl max init := by
  induction l with
  | nil => intro init; simp
  | cons x xs ih =>
    intro init
    calc init ≤ max init x := le_max_left _ _
    _ ≤ xs.foldl max (max init x) := ih _

theorem mem_le_foldl_max (l : List ℚ) : ∀ (init : ℚ) (x : ℚ), x ∈ l → x ≤ l.foldl max init := by
  induction l with
  | nil => intro _ x hx; cases hx
  | cons y ys ih =>
    intro init x hx
    rcases List.mem_cons.mp hx with h | h
    · subst h
      calc x ≤ max init x := le_max_right _ _
      _ ≤ ys.foldl max (max init x) := le_foldl_max _ _
    · exact ih _ x h

theorem foldl_max_le (l : List ℚ) : ∀ (init c : ℚ), init ≤ c → (∀ x ∈ l, x ≤ c) →
    l.foldl max init ≤ c := by
  induction l with
  | nil => intro init c h _; simpa using h
  | cons y ys ih =>
    intro init c h hall
    simp only [List.foldl_cons]
    exact ih _ c (max_le h (hall y (by simp))) (fun x hx => hall x (by simp [hx]))

theorem foldl_min_le (l : List ℚ) : ∀ (init : ℚ), l.foldl min init ≤ init := by
  induction l with
  | nil => intro init; simp
  | cons x xs ih =>
    intro init
    simp only [List.foldl_cons]
    calc xs.foldl min (min init x) ≤ min init x := ih _
    _ ≤ init := min_le_left _ _

theorem foldl_min_le_mem (l : List ℚ) : ∀ (init x : ℚ), x ∈ l → l.foldl min init ≤ x := by
  induction l with
  | nil => intro _ x hx; cases hx
  | cons y ys ih =>
    intro init x hx
    rcases List.mem_cons.mp hx with h | h
    · subst h
      simp only [List.foldl_cons]
      calc ys.foldl min (min init x) ≤ min init x := foldl_min_le _ _
      _ ≤ x := min_le_right _ _
    · exact ih _ x h

theorem npmax_cons_zero_nonneg (aa : List ℚ) : 0 ≤ npmax (0 :: aa) := by
  unfold npmax
  simpa using le_foldl_max (0 :: aa) 0

theorem npmin_cons_zero_nonpos (aa : List ℚ) : npmin (0 :: aa) ≤ 0 := by
  unfold npmin
  simpa using foldl_min_le_mem (0 :: aa) 0 0 (by simp)

theorem kuiperOf_nonneg (aa : List ℚ) : 0 ≤ kuiperOf aa := by
  unfold kuiperOf
  have h1 := npmax_cons_zero_nonneg aa
  have h2 := npmin_cons_zero_nonpos aa
  linarith

theorem ksOf_nonneg (aa : List ℚ) : 0 ≤ ksOf aa := by
  unfold ksOf npmax
  cases aa with
  | nil => simp
  | cons x xs =>
    calc (0 : ℚ) ≤ |x| := abs_nonneg x
    _ ≤ _ := by
      refine mem_le_foldl_max _ _ _ ?_
      simp

theorem mem_le_kuiperOf (aa : List ℚ) (x : ℚ) (hx : x ∈ aa) (h : singleSigned aa) :
    |x| ≤ kuiperOf aa := by
  unfold kuiperOf npmax npmin
  have hmem : x ∈ (0 : ℚ) :: aa := by simp [hx]
  have hmax : x ≤ ((0 : ℚ) :: aa).foldl max (((0 : ℚ) :: aa).headD 0) :=
    mem_le_foldl_max _ _ _ hmem
  have hmin : ((0 : ℚ) :: aa).foldl min (((0 : ℚ) :: aa).headD 0) ≤ x :=
    foldl_min_le_mem _ _ _ hmem
  have hmax0 : (0 : ℚ) ≤ ((0 : ℚ) :: aa).foldl max (((0 : ℚ) :: aa).headD 0) :=
    mem_le_foldl_max _ _ _ (by simp)
  have hmin0 : ((0 : ℚ) :: aa).foldl min (((0 : ℚ) :: aa).headD 0) ≤ 0 :=
    foldl_min_le_mem _ _ _ (by simp)
  rcases h with hpos | hneg
  · rw [abs_of_nonneg (hpos x hx)]
    linarith
  · rw [abs_of_nonpos (hneg x hx)]
    linarith

theorem ksOf_le_kuiperOf (aa : List ℚ) (h : singleSigned aa) : ksOf aa ≤ kuiperOf aa := by
  unfold ksOf npmax
  cases aa with
  | nil =>
    simpa using kuiperOf_nonneg ([] : List ℚ)
  | cons x xs =>
    refine foldl_max_le _ _ _ ?_ ?_
    · simpa using mem_le_kuiperOf (x :: xs) x (by simp) h
    · intro y hy
      rcases List.mem_map.mp hy with ⟨z, hz, rfl⟩
      exact mem_le_kuiperOf (x :: xs) z hz h

/-- C3: for any input, the Kuiper statistic and the Kolmogorov-Smirnov
statistic returned by `cumulative` are nonnegative; and whenever the
cumulative sequence is single-signed, the Kuiper statistic (max minus min of
the cumulative sequence with 0 inserted) is at least the Kolmogorov-Smirnov
statistic (max absolute value of the cumulative sequence). -/
theorem cumulative_stats_nonneg_kuiper_ge_ks (r0 r1 s0 s1 w0 w1 : List ℚ) :
    0 ≤ (cumulativeCore r0 r1 s0 s1 w0 w1).kuiper ∧
    0 ≤ (cumulativeCore r0 r1 s0 s1 w0 w1).ks ∧
    (singleSigned (cumulativeCore r0 r1 s0 s1 w0 w1).aa →
      (cumulativeCore r0 r1 s0 s1 w0 w1).ks ≤ (cumulativeCore r0 r1 s0 s1 w0 w1).kuiper) :=
  ⟨kuiperOf_nonneg _, ksOf_nonneg _, fun h => ksOf_le_kuiperOf _ h⟩

theorem cumulative_stats_nonneg_kuiper_ge_ks_witness :
    singleSigned (cumulativeCore [1, 1] [0, 0] [1, 3] [2, 4] [1, 1] [1, 1]).aa ∧
    0 ≤ (cumulativeCore [1, 1] [0, 0] [1, 3] [2, 4] [1, 1] [1, 1]).kuiper ∧
    0 ≤ (cumulativeCore [1, 1] [0, 0] [1, 3] [2, 4] [1, 1] [1, 1]).ks ∧
    (cumulativeCore [1, 1] [0, 0] [1, 3] [2, 4] [1, 1] [1, 1]).ks
      ≤ (cumulativeCore [1, 1] [0, 0] [1, 3] [2, 4] [1, 1] [1, 1]).kuiper := by
  have haa : (cumulativeCore [1, 1] [0, 0] [1, 3] [2, 4] [1, 1] [1, 1]).aa = [1/2, 1] := by
    norm_num [cumulativeCore, firstTag, mergedTags, mergesorted, mergesortedAux, bOf, w2Of,
      binvalues, aggvalues, binvaluesGo, wnorm, assemble, stagger, cumsum,
      List.getD, List.range_succ]
  have hss : singleSigned (cumulativeCore [1, 1] [0, 0] [1, 3] [2, 4] [1, 1] [1, 1]).aa := by
    rw [haa]
    left
    intro x hx
    rcases List.mem_cons.mp hx with h | h
    · subst h; norm_num
    · rcases List.mem_cons.mp h with h2 | h2
      · subst h2; norm_num
      · cases h2
  have hmain := cumulative_stats_nonneg_kuiper_ge_ks [1, 1] [0, 0] [1, 3] [2, 4] [1, 1] [1, 1]
  exact ⟨hss, hmain.1, hmain.2.1, hmain.2.2 hss⟩

/-! ### Claim C4: the disjointness check of `cumulative` (lines 184-203)

`cumulative` validates its input before computing anything: it asserts that
each score array is strictly increasing (line 186), that the concatenation of
the two score arrays has as many unique values as entries (line 189, the
disjointness check), and that all weights are positive (line 198, after
defaulting absent weights to all ones).  A failed assertion aborts the call;
the error taxonomy follows the spec (`NotSorted`, `NotDisjoint`,
`InvalidWeight`). -/

inductive CumulError where
  | notSorted
  | notDisjoint
  | invalidWeight
deriving DecidableEq

def cumulativeChecked (r0 r1 s0 s1 : List ℚ) (weights : Option (List ℚ × List ℚ)) :
    Except CumulError CumulOut :=
  if ¬ List.Chain' (· < ·) s0 then .error .notSorted
  else if ¬ List.Chain' (· < ·) s1 then .error .notSorted
  else if (s0 ++ s1).dedup.length ≠ (s0 ++ s1).length then .error .notDisjoint
  else
    let w := match weights with
      | none => (List.replicate s0.length (1 : ℚ), List.replicate s1.length (1 : ℚ))
      | some p => p
    if ¬ (∀ x ∈ w.1, 0 < x) ∨ ¬ (∀ x ∈ w.2, 0 < x) then .error .invalidWeight
    else .ok (cumulativeCore r0 r1 s0 s1 w.1 w.2)

theorem nodup_of_chain_lt (l : List ℚ) (h : List.Chain' (· < ·) l) : l.Nodup := by
  have hp : List.Pairwise (· < ·) l := List.chain'_iff_pairwise.mp h
  exact hp.imp (fun hxy => ne_of_lt hxy)

/-- C4: with strictly sorted score arrays, if the two score arrays share any
value then `cumulative` fails its disjointness check (aborting with
`NotDisjoint` before any statistic is produced); if the score sets are fully
disjoint, the disjointness check passes (the call never returns
`NotDisjoint`). -/
theorem cumulative_disjointness_check (r0 r1 s0 s1 : List ℚ)
    (weights : Option (List ℚ × List ℚ))
    (hs0 : List.Chain' (· < ·) s0) (hs1 : List.Chain' (· < ·) s1) :
    ((∃ v, v ∈ s0 ∧ v ∈ s1) →
        cumulativeChecked r0 r1 s0 s1 weights = .error .notDisjoint) ∧
    ((∀ v ∈ s0, v ∉ s1) →
        cumulativeChecked r0 r1 s0 s1 weights ≠ .error .notDisjoint) := by
  constructor
  · rintro ⟨v, hv0, hv1⟩
    have hnodup : ¬ (s0 ++ s1).Nodup := by
      intro hn
      exact (List.nodup_append.mp hn).2.2 hv0 hv1
    have hlen : (s0 ++ s1).dedup.length ≠ (s0 ++ s1).length := by
      intro hl
      apply hnodup
      have hd : (s0 ++ s1).dedup = s0 ++ s1 :=
        ((s0 ++ s1).dedup_sublist).eq_of_length hl
      rw [← hd]
      exact List.nodup_dedup _
    unfold cumulativeChecked
    rw [if_neg (not_not_intro hs0), if_neg (not_not_intro hs1), if_pos hlen]
  · intro hdisj
    have hnodup : (s0 ++ s1).Nodup :=
      List.nodup_append.mpr ⟨nodup_of_chain_lt s0 hs0, nodup_of_chain_lt s1 hs1, hdisj⟩
    have hlen : ¬ (s0 ++ s1).dedup.length ≠ (s0 ++ s1).length := by
      rw [List.dedup_eq_self.mpr hnodup]
      exact not_not_intro rfl
    unfold cumulativeChecked
    rw [if_neg (not_not_intro hs0), if_neg (not_not_intro hs1), if_neg hlen]
    dsimp only
    split
    · simp
    · simp

theorem cumulative_disjointness_check_witness :
    List.Chain' (· < ·) [(1 : ℚ), 2] ∧ List.Chain' (· < ·) [(2 : ℚ), 3] ∧
    cumulativeChecked [0, 0] [1, 1] [1, 2] [2, 3] none = .error .notDisjoint := by
  have h0 : List.Chain' (· < ·) [(1 : ℚ), 2] := by norm_num [List.chain'_cons]
  have h1 : List.Chain' (· < ·) [(2 : ℚ), 3] := by norm_num [List.chain'_cons]
  refine ⟨h0, h1, ?_⟩
  exact (cumulative_disjointness_check [0, 0] [1, 1] [1, 2] [2, 3] none h0 h1).1
    ⟨(2 : ℚ), by norm_num, by norm_num⟩

/-! ### equiscores (lines 353-448): equal-score-width reliability bins

`bintwo` (lines 387-409): walks the sorted scores `q`, advancing the current
bin index `j` by one whenever the score exceeds `qmax * (j + 1) / nbins`,
breaking once `j` reaches `nbins`; accumulates the weighted sums of `a`, `b`
and the weights into arrays of length `nbins`; finally divides each bin by
its weight, reporting `np.nan` for zero-weight bins.  The nan sentinel is
modeled as `none : Option ℚ`. -/

def bintwoGo (nbins : ℕ) (qmax : ℚ) (a b w : List ℚ) :
    List ℚ → ℕ → ℕ → List ℚ × List ℚ × List ℚ → List ℚ × List ℚ × List ℚ
  | [], _, _, st => st
  | qk :: rest, k, j, (bina, binb, wbin) =>
      let j2 := if qmax * (j + 1) / nbins < qk then j + 1 else j
      if j2 = nbins then (bina, binb, wbin)
      else
        bintwoGo nbins qmax a b w rest (k + 1) j2
          (bina.set j2 (bina.getD j2 0 + w.getD k 0 * a.getD k 0),
           binb.set j2 (binb.getD j2 0 + w.getD k 0 * b.getD k 0),
           wbin.set j2 (wbin.getD j2 0 + w.getD k 0))

/-- Per-bin summaries: total weight per bin, and weighted averages of the
two value arrays (`none` is the nan sentinel for a zero-weight bin). -/
structure BinTriple where
  wbin : List ℚ
  bina : List (Option ℚ)
  binb : List (Option ℚ)

def bintwo (nbins : ℕ) (a b q : List ℚ) (qmax : ℚ) (w : List ℚ) : BinTriple :=
  let st := bintwoGo nbins qmax a b w q 0 0
    (List.replicate nbins 0, List.replicate nbins 0, List.replicate nbins 0)
  { wbin := st.2.2,
    bina := List.zipWith (fun s wb => if wb = 0 then none else some (s / wb)) st.1 st.2.2,
    binb := List.zipWith (fun s wb => if wb = 0 then none else some (s / wb)) st.2.1 st.2.2 }

/-- Slice `l[i:j]` of a numpy array. -/
def sliceL (l : List ℚ) (i j : ℕ) : List ℚ := (l.drop i).take (j - i)

/-- inbintwo (lines 492-506): per-bin total weight and weighted averages over
the index bins `[inbin[k], inbin[k+1])`, with the nan sentinel (`none`) for
zero-weight bins. -/
def inbintwo (a b : List ℚ) (inbin : List ℕ) (w : List ℚ) : BinTriple :=
  let wbin := (List.range (inbin.length - 1)).map fun k =>
    (sliceL w (inbin.getD k 0) (inbin.getD (k + 1) 0)).sum
  let binaRaw := (List.range (inbin.length - 1)).map fun k =>
    (List.zipWith (· * ·) (sliceL w (inbin.getD k 0) (inbin.getD (k + 1) 0))
      (sliceL a (inbin.getD k 0) (inbin.getD (k + 1) 0))).sum
  let binbRaw := (List.range (inbin.length - 1)).map fun k =>
    (List.zipWith (· * ·) (sliceL w (inbin.getD k 0) (inbin.getD (k + 1) 0))
      (sliceL b (inbin.getD k 0) (inbin.getD (k + 1) 0))).sum
  { wbin := wbin,
    bina := List.zipWith (fun s wb => if wb = 0 then none else some (s / wb)) binaRaw wbin,
    binb := List.zipWith (fun s wb => if wb = 0 then none else some (s / wb)) binbRaw wbin }

/-- Default weights of `equiscores`/`equierrs` (lines 415-418 and 537-540):
when `weights is None` the source builds `np.ones((n[j]))` — but `n` is not a
parameter or local of either function; it is the module-global list defined
only inside the demo block (`n = [10000, 7000]`).  Outside that block the
name is undefined and the call raises `NameError`, modeled as `none`. -/
def binningDefaultWeights (nGlobal : Option (List ℕ)) : Option (List ℚ × List ℚ) :=
  nGlobal.map fun n => (List.replicate (n.getD 0 0) 1, List.replicate (n.getD 1 0) 1)

/-- The computation of `equiscores` (lines 411-437): weights default via the
module-global `n`, are normalized by the combined total, and each
subpopulation is binned by `bintwo` with `qmax = s[j][-1]`.  The plot itself
is I/O and not modeled; `none` models the `NameError` of the default-weights
path outside the demo block. -/
def equiscoresModel (nbins : ℕ) (r0 r1 s0 s1 : List ℚ)
    (weights : Option (List ℚ × List ℚ)) (nGlobal : Option (List ℕ)) :
    Option (BinTriple × BinTriple) :=
  let wopt := match weights with
    | some p => some p
    | none => binningDefaultWeights nGlobal
  wopt.map fun w =>
    let wn := normalizeWeightsPair w.1 w.2
    (bintwo nbins r0 s0 s0 (s0.getLastD 0) wn.1,
     bintwo nbins r1 s1 s1 (s1.getLastD 0) wn.2)

/-! ### Claim C6: equiscore binning -/

/-- Bin index predicted by the spec's words for `EquiscoreBinning`: the
equal-width partition of `[min(score), max(score)]` into `nbins` intervals,
an observation being assigned to the bin containing its score (last bin
closed on the right).  This definition follows the specification, not the
source; it exists to be compared against `bintwo`. -/
def specBinIdx (nbins : ℕ) (qmin qmax : ℚ) (x : ℚ) : ℕ :=
  min (nbins - 1) (Int.toNat ⌊(x - qmin) * nbins / (qmax - qmin)⌋)

/-- Spec-predicted per-bin total weight for `EquiscoreBinning` (from the
spec's words, for comparison with the source's `bintwo`). -/
def equiscoreWbinSpec (nbins : ℕ) (q w : List ℚ) : List ℚ :=
  (List.range nbins).map fun j =>
    ((List.zipWith (fun qk wk => (qk, wk)) q w).foldl (fun acc p =>
      if specBinIdx nbins (npmin q) (npmax q) p.1 = j then acc + p.2 else acc) 0)

/-- C6 (counterexample): with scores `[10, 12]` and `nbins = 2`, the source's
`bintwo` thresholds are `qmax * (j+1) / nbins` (an equal partition of
`[0, max]`, not `[min, max]`), so the observation with score 10 — which lies
in the first interval `[10, 11]` of the spec's `[min, max]` partition — is
placed in bin 1 and bin 0 gets zero weight: the code's bins differ from the
claim's. -/
theorem equiscores_containing_bin_cex :
    (bintwo 2 [1, 0] [10, 12] [10, 12] 12 [1, 1]).wbin = [0, 2] ∧
    equiscoreWbinSpec 2 [10, 12] [1, 1] = [1, 1] ∧
    (bintwo 2 [1, 0] [10, 12] [10, 12] 12 [1, 1]).wbin
      ≠ equiscoreWbinSpec 2 [10, 12] [1, 1] := by
  refine ⟨?_, ?_, ?_⟩ <;>
    norm_num [bintwo, bintwoGo, equiscoreWbinSpec, specBinIdx, npmin, npmax,
      List.range_succ, List.replicate_succ, List.set_cons_zero, List.set_cons_succ,
      Int.floor_eq_iff]

theorem bintwoGo_lengths (nbins : ℕ) (qmax : ℚ) (a b w : List ℚ) :
    ∀ (q : List ℚ) (k j : ℕ) (st : List ℚ × List ℚ × List ℚ),
    (bintwoGo nbins qmax a b w q k j st).1.length = st.1.length ∧
    (bintwoGo nbins qmax a b w q k j st).2.1.length = st.2.1.length ∧
    (bintwoGo nbins qmax a b w q k j st).2.2.length = st.2.2.length := by
  intro q
  induction q with
  | nil => intro k j st; exact ⟨rfl, rfl, rfl⟩
  | cons qk rest ih =>
    intro k j st
    obtain ⟨l1, l2, l3⟩ := st
    simp only [bintwoGo]
    by_cases hc : qmax * ((j : ℚ) + 1) / (nbins : ℚ) < qk
    · rw [if_pos hc]
      by_cases hn : j + 1 = nbins
      · rw [if_pos hn]; exact ⟨rfl, rfl, rfl⟩
      · rw [if_neg hn]
        have h := ih (k + 1) (j + 1)
          (l1.set (j + 1) (l1.getD (j + 1) 0 + w.getD k 0 * a.getD k 0),
           l2.set (j + 1) (l2.getD (j + 1) 0 + w.getD k 0 * b.getD k 0),
           l3.set (j + 1) (l3.getD (j + 1) 0 + w.getD k 0))
        simpa [List.length_set] using h
    · rw [if_neg hc]
      by_cases hn : j = nbins
      · rw [if_pos hn]; exact ⟨rfl, rfl, rfl⟩
      · rw [if_neg hn]
        have h := ih (k + 1) j
          (l1.set j (l1.getD j 0 + w.getD k 0 * a.getD k 0),
           l2.set j (l2.getD j 0 + w.getD k 0 * b.getD k 0),
           l3.set j (l3.getD j 0 + w.getD k 0))
        simpa [List.length_set] using h

theorem bintwo_lengths (nbins : ℕ) (a b q : List ℚ) (qmax : ℚ) (w : List ℚ) :
    (bintwo nbins a b q qmax w).wbin.length = nbins ∧
    (bintwo nbins a b q qmax w).bina.length = nbins ∧
    (bintwo nbins a b q qmax w).binb.length = nbins := by
  have h := bintwoGo_lengths nbins qmax a b w q 0 0
    (List.replicate nbins 0, List.replicate nbins 0, List.replicate nbins 0)
  simp only [List.length_replicate] at h
  unfold bintwo
  refine ⟨h.2.2, ?_, ?_⟩ <;> simp [List.length_zipWith, h.1, h.2.1, h.2.2]

/-- C6 (amended): `equiscores` with `nbins = k` always produces exactly `k`
bins for each subpopulation (some possibly empty/undefined); however the
equal-width thresholds span `[0, max(score)]` rather than
`[min(score), max(score)]`, and the bin index advances at most once per
observation, so an observation need not land in the bin containing its score
(see the counterexample). -/
theorem equiscores_bin_count (nbins : ℕ) (r0 r1 s0 s1 : List ℚ)
    (weights : Option (List ℚ × List ℚ)) (nGlobal : Option (List ℕ))
    (out : BinTriple × BinTriple)
    (hout : equiscoresModel nbins r0 r1 s0 s1 weights nGlobal = some out) :
    out.1.wbin.length = nbins ∧ out.1.bina.length = nbins ∧ out.1.binb.length = nbins ∧
    out.2.wbin.length = nbins ∧ out.2.bina.length = nbins ∧ out.2.binb.length = nbins := by
  have hpair : ∃ w : List ℚ × List ℚ,
      out = (bintwo nbins r0 s0 s0 (s0.getLastD 0) (normalizeWeightsPair w.1 w.2).1,
             bintwo nbins r1 s1 s1 (s1.getLastD 0) (normalizeWeightsPair w.1 w.2).2) := by
    unfold equiscoresModel at hout
    rcases weights with _ | p
    · rcases nGlobal with _ | g
      · simp [binningDefaultWeights] at hout
      · simp only [binningDefaultWeights, Option.map_some] at hout
        exact ⟨_, (Option.some_injective _ hout).symm⟩
    · simp only [Option.map_some] at hout
      exact ⟨p, (Option.some_injective _ hout).symm⟩
  obtain ⟨wp, rfl⟩ := hpair
  have h1 := bintwo_lengths nbins r0 s0 s0 (s0.getLastD 0) (normalizeWeightsPair wp.1 wp.2).1
  have h2 := bintwo_lengths nbins r1 s1 s1 (s1.getLastD 0) (normalizeWeightsPair wp.1 wp.2).2
  exact ⟨h1.1, h1.2.1, h1.2.2, h2.1, h2.2.1, h2.2.2⟩

theorem equiscores_bin_count_witness :
    equiscoresModel 2 [1] [0] [5] [7] (some ([1], [1])) none
      = some (⟨[0, 1/2], [none, some 1], [none, some 5]⟩,
              ⟨[0, 1/2], [none, some 0], [none, some 7]⟩) ∧
    ((⟨[0, 1/2], [none, some 1], [none, some 5]⟩ : BinTriple).wbin.length = 2 ∧
     (⟨[0, 1/2], [none, some 1], [none, some 5]⟩ : BinTriple).bina.length = 2 ∧
     (⟨[0, 1/2], [none, some 1], [none, some 5]⟩ : BinTriple).binb.length = 2) := by
  have heq : equiscoresModel 2 [1] [0] [5] [7] (some ([1], [1])) none
      = some (⟨[0, 1/2], [none, some 1], [none, some 5]⟩,
              ⟨[0, 1/2], [none, some 0], [none, some 7]⟩) := by
    norm_num [equiscoresModel, bintwo, bintwoGo, normalizeWeightsPair,
      List.replicate_succ, List.set_cons_zero, List.set_cons_succ]
  have h := equiscores_bin_count 2 [1] [0] [5] [7] (some ([1], [1])) none _ heq
  exact ⟨heq, h.1, h.2.1, h.2.2.1⟩

/-! ### Claim C8: zero-weight bins report the nan sentinel -/

theorem inbintwo_lengths (a b : List ℚ) (inbin : List ℕ) (w : List ℚ) :
    (inbintwo a b inbin w).wbin.length = inbin.length - 1 ∧
    (inbintwo a b inbin w).bina.length = inbin.length - 1 ∧
    (inbintwo a b inbin w).binb.length = inbin.length - 1 := by
  unfold inbintwo
  refine ⟨?_, ?_, ?_⟩ <;> simp [List.length_zipWith]

theorem zipWith_avg_none (raw wbin : List ℚ) (j : ℕ) (hj : j < wbin.length)
    (hlen : raw.length = wbin.length) (h0 : wbin.getD j 37 = 0) :
    (List.zipWith (fun s wb => if wb = 0 then none else some (s / wb)) raw wbin).getD j
      (some 0) = none := by
  have hj2 : j < raw.length := hlen ▸ hj
  have hjz : j < (List.zipWith (fun s wb : ℚ => if wb = 0 then none else some (s / wb))
      raw wbin).length := by
    simp [List.length_zipWith, hlen, hj]
  rw [List.getD_eq_getElem _ _ hjz, List.getElem_zipWith]
  rw [List.getD_eq_getElem _ _ hj] at h0
  simp [h0]

/-- C8: in both binning operations (`bintwo`, used by `equiscores`, and
`inbintwo`, used by `equierrs`), a bin that accumulates zero weight reports
its weighted-average value and score as the nan sentinel (`none`), never as
zero. -/
theorem empty_bin_nan_sentinel (nbins : ℕ) (a b q w : List ℚ) (qmax : ℚ)
    (a2 b2 w2 : List ℚ) (inbin : List ℕ) (j j2 : ℕ) :
    ((bintwo nbins a b q qmax w).wbin.getD j 37 = 0 →
      (bintwo nbins a b q qmax w).bina.getD j (some 0) = none ∧
      (bintwo nbins a b q qmax w).binb.getD j (some 0) = none) ∧
    ((inbintwo a2 b2 inbin w2).wbin.getD j2 37 = 0 →
      (inbintwo a2 b2 inbin w2).bina.getD j2 (some 0) = none ∧
      (inbintwo a2 b2 inbin w2).binb.getD j2 (some 0) = none) := by
  constructor
  · intro h0
    have hlens := bintwo_lengths nbins a b q qmax w
    have hj : j < (bintwo nbins a b q qmax w).wbin.length := by
      by_contra hge
      rw [List.getD_eq_default _ _ (le_of_not_lt hge)] at h0
      norm_num at h0
    have hst := bintwoGo_lengths nbins qmax a b w q 0 0
      (List.replicate nbins 0, List.replicate nbins 0, List.replicate nbins 0)
    simp only [List.length_replicate] at hst
    constructor
    · exact zipWith_avg_none _ _ j hj (by rw [hst.1, hst.2.2]) h0
    · exact zipWith_avg_none _ _ j hj (by rw [hst.2.1, hst.2.2]) h0
  · intro h0
    have hj : j2 < (inbintwo a2 b2 inbin w2).wbin.length := by
      by_contra hge
      rw [List.getD_eq_default _ _ (le_of_not_lt hge)] at h0
      norm_num at h0
    have hlens := inbintwo_lengths a2 b2 inbin w2
    constructor
    · exact zipWith_avg_none _ _ j2 hj (by
        show ((List.range (inbin.length - 1)).map _).length = _
        simp [inbintwo]) h0
    · exact zipWith_avg_none _ _ j2 hj (by
        show ((List.range (inbin.length - 1)).map _).length = _
        simp [inbintwo]) h0

theorem empty_bin_nan_sentinel_witness :
    (bintwo 2 [1, 0] [10, 12] [10, 12] 12 [1, 1]).wbin.getD 0 37 = 0 ∧
    (bintwo 2 [1, 0] [10, 12] [10, 12] 12 [1, 1]).bina.getD 0 (some 0) = none ∧
    (bintwo 2 [1, 0] [10, 12] [10, 12] 12 [1, 1]).binb.getD 0 (some 0) = none ∧
    (inbintwo [3] [4] [0, 0, 1] [5]).wbin.getD 0 37 = 0 ∧
    (inbintwo [3] [4] [0, 0, 1] [5]).bina.getD 0 (some 0) = none ∧
    (inbintwo [3] [4] [0, 0, 1] [5]).binb.getD 0 (some 0) = none := by
  have h1 : (bintwo 2 [1, 0] [10, 12] [10, 12] 12 [1, 1]).wbin.getD 0 37 = 0 := by
    norm_num [bintwo, bintwoGo, List.replicate_succ, List.set_cons_zero, List.set_cons_succ]
  have h2 : (inbintwo [3] [4] [0, 0, 1] [5]).wbin.getD 0 37 = 0 := by
    norm_num [inbintwo, sliceL, List.range_succ]
  have hmain := empty_bin_nan_sentinel 2 [1, 0] [10, 12] [10, 12] [1, 1] 12
    [3] [4] [5] [0, 0, 1] 0 0
  exact ⟨h1, (hmain.1 h1).1, (hmain.1 h1).2, h2, (hmain.2 h2).1, (hmain.2 h2).2⟩

/-! ### Claim C9: `cumulative` mutates the caller's weight arrays -/

/-- Caller-visible weight arrays after `cumulative` returns.  Line 196 takes
`w = weights.copy()` — a shallow copy of the outer Python list, so `w[0]`
and `w[1]` still alias the caller's numpy arrays — and lines 202-203 run the
in-place numpy division `w[j] /= wtot`.  The caller's arrays are therefore
scaled by `1 / (sum(w[0]) + sum(w[1]))` as a side effect of the call
(`equiscores`, `equierrs` and `ate` share the same pattern). -/
def cumulativePostWeights (w0 w1 : List ℚ) : List ℚ × List ℚ :=
  normalizeWeightsPair w0 w1

/-- C9 (code bug): `cumulative` is not side-effect-free on its inputs — with
caller weights `[2]` and `[2]`, the caller's arrays hold `[1/2]` and `[1/2]`
after the call, not the original values. -/
theorem cumulative_mutates_caller_weights :
    cumulativePostWeights [2] [2] = ([1/2], [1/2]) ∧
    cumulativePostWeights [2] [2] ≠ (([2] : List ℚ), ([2] : List ℚ)) := by
  constructor <;> norm_num [cumulativePostWeights, normalizeWeightsPair]

/-! ### Claim C10: the default (uniform) weights of equiscores/equierrs -/

set_option maxRecDepth 4000 in
/-- C10 (code bug): with `weights = None`, `equiscores` (and `equierrs`,
lines 537-540) builds `np.ones((n[j]))` from the module-global `n`, which is
only defined inside the demo block.  Outside it the call raises `NameError`
instead of defaulting to uniform weights (first conjunct); under the demo's
globals `n = [10000, 7000]` the constructed weight vectors have lengths
10000 and 7000 regardless of the data, which cannot match an all-ones vector
for a length-1 score array (remaining conjuncts). -/
theorem default_weights_global_n_bug :
    equiscoresModel 1 [1] [0] [1/2] [7/10] none none = none ∧
    (binningDefaultWeights (some [10000, 7000])).map (fun p => (p.1.length, p.2.length))
      = some (10000, 7000) ∧
    (10000 : ℕ) ≠ ([(1 : ℚ)/2]).length := by
  refine ⟨?_, ?_, ?_⟩
  · simp [equiscoresModel, binningDefaultWeights]
  · simp only [binningDefaultWeights, Option.map_some', List.getD_cons_zero,
      List.getD_cons_succ, List.length_replicate]
  · simp

/-! ### equierrs (lines 451-577): bins with similar L2/L1 weight-norm ratio

`binbounds` (lines 508-531) grows bins greedily over the weight sequence.
The inner while loop (lines 523-526) keeps absorbing the next weight while
`ss / s**2 > t` and the position is not the last index; it is modeled with
the list of weights after the current position (`w[k+1:]`) so the loop is
structural.  The outer while loop (lines 518-526) opens a new bin at every
stop; it advances the position by at least one per iteration, so running it
with fuel `len(w)` is exact.  The threshold `t` is the source's heuristic
`np.square(v).sum() / v.sum()**2` over an RNG-chosen subsample `v` of the
weights (lines 512-515); since the subsample depends only on the caller's
generator, `t` is a parameter here and the theorems hold for every value of
`t`, hence for every RNG state. -/

def innerGrow (t : ℚ) : List ℚ → ℕ → ℚ → ℚ → ℕ × List ℚ
  | [], kk, _, _ => (kk, [])
  | y :: rest, kk, s, ss =>
      if t < ss / s ^ 2 then innerGrow t rest (kk + 1) (s + y) (ss + y ^ 2)
      else (kk, y :: rest)

def outerBins (t : ℚ) : ℕ → List ℚ → ℕ → List ℕ → List ℕ
  | 0, _, _, acc => acc.reverse
  | _ + 1, [], _, acc => acc.reverse
  | fuel + 1, x :: rest, k, acc =>
      let p := innerGrow t rest (k + 1) x (x ^ 2)
      outerBins t fuel p.2 p.1 (k :: acc)

/-- binbounds (lines 508-531): the bin boundaries.  After the loops, the
trailing bin is merged into the previous one (`inbin[-1] = len(w)`) when
shorter than half of it, else `len(w)` is appended (lines 527-530).  Line
527 reads `inbin[-1]` and `inbin[-2]`: when the greedy loop produced fewer
than two boundaries (every input with `len(w) = 2`, and any `w` whose first
bin absorbs the whole array, e.g. uniform weights with a threshold below the
bin's running ratio) the negative index is out of range and Python raises
IndexError, so no bins are produced; that abort is modeled as `none`. -/
def binbounds (w : List ℚ) (t : ℚ) : Option (List ℕ) :=
  let inbin := outerBins t w.length (w.drop 1) 0 []
  if inbin.length < 2 then none
  else
    let lastB := inbin.getD (inbin.length - 1) 0
    let lastB2 := inbin.getD (inbin.length - 2) 0
    if (w.length : ℚ) - (lastB : ℚ) < ((lastB : ℚ) - (lastB2 : ℚ)) / 2
    then some (inbin.dropLast ++ [w.length])
    else some (inbin ++ [w.length])

theorem innerGrow_spec (t : ℚ) : ∀ (rest : List ℚ) (kk : ℕ) (s ss : ℚ),
    kk ≤ (innerGrow t rest kk s ss).1 ∧
    (innerGrow t rest kk s ss).1 + (innerGrow t rest kk s ss).2.length
      = kk + rest.length := by
  intro rest
  induction rest with
  | nil => intro kk s ss; simp [innerGrow]
  | cons y rest ih =>
    intro kk s ss
    simp only [innerGrow]
    split
    · have h := ih (kk + 1) (s + y) (ss + y ^ 2)
      refine ⟨le_trans (Nat.le_succ kk) h.1, ?_⟩
      rw [h.2]
      simp [List.length_cons]
      omega
    · simp [List.length_cons]

theorem outerBins_spec (t : ℚ) : ∀ (fuel : ℕ) (rem : List ℚ) (k : ℕ) (acc : List ℕ),
    rem.length ≤ fuel →
    ∃ L, outerBins t fuel rem k acc = acc.reverse ++ L ∧
      List.Chain' (· < ·) L ∧
      (∀ e ∈ L, k ≤ e ∧ e + 1 ≤ k + rem.length) ∧
      L.headD k = k ∧
      (L = [] ↔ rem = []) := by
  intro fuel
  induction fuel with
  | zero =>
    intro rem k acc h
    have hrem : rem = [] := List.eq_nil_of_length_eq_zero (by omega)
    subst hrem
    exact ⟨[], by simp [outerBins], by simp, by simp, rfl, by simp⟩
  | succ fuel ih =>
    intro rem k acc h
    match rem with
    | [] => exact ⟨[], by simp [outerBins], by simp, by simp, rfl, by simp⟩
    | x :: rest =>
      obtain ⟨hk1, hlen⟩ := innerGrow_spec t rest (k + 1) x (x ^ 2)
      have hrem2 : (innerGrow t rest (k + 1) x (x ^ 2)).2.length ≤ fuel := by
        simp only [List.length_cons] at h
        omega
      obtain ⟨L2, hout, hchain, hbnd, hhead, hiff⟩ :=
        ih (innerGrow t rest (k + 1) x (x ^ 2)).2
          (innerGrow t rest (k + 1) x (x ^ 2)).1 (k :: acc) hrem2
      refine ⟨k :: L2, ?_, ?_, ?_, rfl, by simp⟩
      · show outerBins t (fuel + 1) (x :: rest) k acc = acc.reverse ++ k :: L2
        simp only [outerBins]
        rw [hout]
        simp
      · rw [List.chain'_cons']
        refine ⟨?_, hchain⟩
        intro y hy
        cases hL : L2 with
        | nil => rw [hL] at hy; simp at hy
        | cons e L3 =>
          rw [hL] at hy
          simp only [List.head?_cons, Option.mem_def, Option.some.injEq] at hy
          have he : e = (innerGrow t rest (k + 1) x (x ^ 2)).1 := by
            rw [hL] at hhead
            simpa using hhead
          omega
      · intro e he
        rcases List.mem_cons.mp he with rfl | hmem
        · simp only [List.length_cons]
          omega
        · have hb := hbnd e hmem
          simp only [List.length_cons]
          omega

theorem binbounds_props (w : List ℚ) (t : ℚ) (bs : List ℕ)
    (hbs : binbounds w t = some bs) :
    bs.headD 0 = 0 ∧
    List.Chain' (· < ·) bs ∧
    bs.getLast? = some w.length := by
  obtain ⟨L, hout, hchain, hbnd, hhead, hiff⟩ :=
    outerBins_spec t w.length (w.drop 1) 0 [] (by simp)
  have hbin : outerBins t w.length (w.drop 1) 0 [] = L := by simpa using hout
  unfold binbounds at hbs
  rw [hbin] at hbs
  dsimp only at hbs
  by_cases hlt : L.length < 2
  · rw [if_pos hlt] at hbs
    exact absurd hbs (by simp)
  rw [if_neg hlt] at hbs
  have hL2 : 2 ≤ L.length := by omega
  have hLne : L ≠ [] := by
    intro hc
    rw [hc] at hL2
    simp at hL2
  have hdropne : w.drop 1 ≠ [] := fun hc => hLne (hiff.mpr hc)
  have hw : 2 ≤ w.length := by
    have hpos : 0 < (w.drop 1).length := List.length_pos.mpr hdropne
    simp only [List.length_drop] at hpos
    omega
  have hbnd2 : ∀ e ∈ L, e + 1 ≤ w.length - 1 := by
    intro e he
    have := (hbnd e he).2
    simpa [List.length_drop] using this
  split at hbs
  · -- merge branch: the last boundary is replaced by len(w)
    simp only [Option.some.injEq] at hbs
    subst hbs
    match hL : L, hL2 with
    | e1 :: e2 :: L3, _ =>
    simp only [List.headD_cons] at hhead
    constructor
    · simp [List.dropLast_cons₂, hhead]
    constructor
    · rw [List.chain'_append]
      have hne2 : (e1 :: e2 :: L3) ≠ [] := by simp
      have hchain2 : List.Chain' (· < ·)
          ((e1 :: e2 :: L3).dropLast ++ [(e1 :: e2 :: L3).getLast hne2]) := by
        rw [List.dropLast_append_getLast hne2]
        exact hchain
      refine ⟨(List.chain'_append.mp hchain2).1, by simp, ?_⟩
      intro x hx y hy
      simp only [List.head?_cons, Option.mem_def, Option.some.injEq] at hy
      subst hy
      have hxmem : x ∈ e1 :: e2 :: L3 :=
        (List.dropLast_sublist _).mem (List.mem_of_mem_getLast? hx)
      have := hbnd2 x hxmem
      omega
    · exact List.getLast?_concat _
  · simp only [Option.some.injEq] at hbs
    subst hbs
    constructor
    · cases hL : L with
      | nil => exact absurd hL hLne
      | cons e L3 =>
        rw [hL] at hhead
        simp only [List.headD_cons] at hhead
        simp [hhead]
    constructor
    · rw [List.chain'_append]
      refine ⟨hchain, by simp, ?_⟩
      intro x hx y hy
      simp only [List.head?_cons, Option.mem_def, Option.some.injEq] at hy
      subst hy
      have := hbnd2 x (List.mem_of_mem_getLast? hx)
      omega
    · exact List.getLast?_concat _

theorem pairs_map_eq (f : ℕ → ℕ → ℚ) : ∀ (bs : List ℕ),
    (List.range (bs.length - 1)).map (fun k => f (bs.getD k 0) (bs.getD (k + 1) 0))
      = (bs.zip bs.tail).map (fun p => f p.1 p.2) := by
  intro bs
  induction bs with
  | nil => simp
  | cons b1 rest ih =>
    cases rest with
    | nil => simp
    | cons b2 rest2 =>
      have hlen : (b1 :: b2 :: rest2).length - 1 = ((b2 :: rest2).length - 1) + 1 := by
        simp
      rw [hlen, List.range_succ_eq_map, List.map_cons, List.map_map]
      have hcomp : ((fun k => f ((b1 :: b2 :: rest2).getD k 0)
            ((b1 :: b2 :: rest2).getD (k + 1) 0)) ∘ Nat.succ)
          = fun k => f ((b2 :: rest2).getD k 0) ((b2 :: rest2).getD (k + 1) 0) := by
        funext k
        simp [List.getD_cons_succ]
      rw [hcomp, ih]
      simp [List.getD_cons_zero, List.getD_cons_succ]

theorem sliceL_sum (w : List ℚ) (i j : ℕ) (hij : i ≤ j) :
    (sliceL w i j).sum = (w.take j).sum - (w.take i).sum := by
  have h : w.take j = w.take i ++ (w.drop i).take (j - i) := by
    rw [← List.take_add]
    congr 1
    omega
  rw [h, List.sum_append, sliceL]
  ring

theorem telescope_sum (w : List ℚ) : ∀ (bs : List ℕ) (b : ℕ),
    List.Chain' (· ≤ ·) (b :: bs) →
    (((b :: bs).zip bs).map (fun p => (sliceL w p.1 p.2).sum)).sum
      = (w.take ((b :: bs).getLastD 0)).sum - (w.take b).sum := by
  intro bs
  induction bs with
  | nil => intro b _; simp
  | cons b2 rest ih =>
    intro b hchain
    have hle : b ≤ b2 := (List.chain'_cons.mp hchain).1
    have hchain2 : List.Chain' (· ≤ ·) (b2 :: rest) := (List.chain'_cons.mp hchain).2
    simp only [List.zip_cons_cons, List.map_cons, List.sum_cons, List.tail_cons]
    rw [ih b2 hchain2, sliceL_sum w b b2 hle]
    have hlast : (b :: b2 :: rest).getLastD 0 = (b2 :: rest).getLastD 0 := by
      simp [List.getLastD_cons]
    rw [hlast]
    ring

/-- C7: whenever `equierrs` produces bins at all (i.e. `binbounds` returns a
boundary list instead of aborting with the line-527 IndexError, modeled as
`binbounds w t = some bs`), those bins partition the full index range: the
boundary list starts at index 0, is strictly increasing, and ends at the
input length, so the per-bin weights computed by `inbintwo` sum to the total
input weight. -/
theorem equierrs_partition_total_weight (a b w : List ℚ) (t : ℚ) (bs : List ℕ)
    (hbs : binbounds w t = some bs) :
    bs.headD 0 = 0 ∧
    List.Chain' (· < ·) bs ∧
    bs.getLast? = some w.length ∧
    (inbintwo a b bs w).wbin.sum = w.sum := by
  obtain ⟨hhead, hchain, hlast⟩ := binbounds_props w t bs hbs
  refine ⟨hhead, hchain, hlast, ?_⟩
  have hwbin : (inbintwo a b bs w).wbin
      = (List.range (bs.length - 1)).map fun k =>
          (sliceL w (bs.getD k 0) (bs.getD (k + 1) 0)).sum := rfl
  rw [hwbin, pairs_map_eq (fun i j => (sliceL w i j).sum) bs]
  have hne : bs ≠ [] := by
    intro hc
    rw [hc] at hlast
    simp at hlast
  match hbsl : bs, hne with
  | e :: rest, _ =>
  simp only [List.headD_cons] at hhead
  subst hhead
  simp only [List.tail_cons]
  rw [telescope_sum w rest 0 (hchain.imp fun a b hab => le_of_lt hab)]
  have hlastD : (0 :: rest).getLastD 0 = w.length := by
    rw [List.getLastD_eq_getLast?, hlast]
    rfl
  rw [hlastD]
  simp

theorem equierrs_partition_total_weight_witness :
    binbounds [(1 : ℚ), 1, 1, 1] 1 = some [0, 1, 2, 4] ∧
    ([0, 1, 2, 4] : List ℕ).headD 0 = 0 ∧
    List.Chain' (· < ·) ([0, 1, 2, 4] : List ℕ) ∧
    ([0, 1, 2, 4] : List ℕ).getLast? = some 4 ∧
    (inbintwo [5, 6, 7, 8] [9, 10, 11, 12] [0, 1, 2, 4] [1, 1, 1, 1]).wbin.sum
      = ([(1 : ℚ), 1, 1, 1]).sum := by
  have heq : binbounds [(1 : ℚ), 1, 1, 1] 1 = some [0, 1, 2, 4] := by
    norm_num [binbounds, outerBins, innerGrow]
  have h := equierrs_partition_total_weight [5, 6, 7, 8] [9, 10, 11, 12]
    [1, 1, 1, 1] 1 [0, 1, 2, 4] heq
  exact ⟨heq, h.1, h.2.1, h.2.2.1, h.2.2.2⟩

/-! ### ate (lines 630-728): matched average treatment effect

The source concatenates the two subpopulations' scores, responses, weights
and origin indicators into four parallel arrays and, once per round, permutes
all four by a fresh random permutation, stably argsorts by score and
reindexes, then scans each observation's nearest opposite-origin neighbors
to the left and right.  The four parallel arrays are modeled as one list of
records; applying `perm` and then the stable argsort to all four arrays is
the stable sort by score of the permuted record list.  The sequence of
permutations drawn from the caller's generator (one per round, consumed in
order) is the `perms` parameter; replaying the same generator state means
passing the same `perms`.  As in the source, the permuted-and-sorted arrays
persist from one round to the next. -/

structure MObs where
  s : ℚ
  r : ℚ
  w : ℚ
  tag : Bool

instance : Inhabited MObs := ⟨⟨0, 0, 0, false⟩⟩

/-- Records of one subpopulation, tagged with its origin (`false` for the
subpopulation passed first). -/
def tagRecs (rs ss ws : List ℚ) (tg : Bool) : List MObs :=
  List.zipWith (fun pv wv => ⟨pv.1, pv.2, wv, tg⟩) (ss.zip rs) ws

/-- Comparison by score, used by the stable argsort. -/
def scoreLE (x y : MObs) : Prop := x.s ≤ y.s

instance : DecidableRel scoreLE := fun x y => inferInstanceAs (Decidable (x.s ≤ y.s))

instance : IsTotal MObs scoreLE := ⟨fun x y => le_total x.s y.s⟩

instance : IsTrans MObs scoreLE := ⟨fun _ _ _ h1 h2 => le_trans h1 h2⟩

/-- Stable sort by score: `np.argsort(s2, kind='stable')` followed by
reindexing of the four parallel arrays (insertion sort with a non-strict
comparison is stable). -/
def sortRecs (l : List MObs) : List MObs := List.insertionSort scoreLE l

/-- Applying a numpy index permutation: `s2[perm]` etc. -/
def applyPerm (p : List ℕ) (l : List MObs) : List MObs :=
  p.map (fun i => l.getD i default)

/-- Index of the first entry satisfying the predicate (used to model the two
`while` scans of lines 698-720). -/
def firstIdx (p : Bool → Bool) : List Bool → Option ℕ
  | [] => none
  | x :: xs => if p x then some 0 else (firstIdx p xs).map (· + 1)

/-- The left scan (lines 698-709): nearest index `k < j` whose origin
differs from that of `j` (`None` when none exists). -/
def lookLeft (tags : List Bool) (tj : Bool) (j : ℕ) : Option ℕ :=
  (firstIdx (fun tv => tv != tj) ((tags.take j).reverse)).map (fun i => j - 1 - i)

/-- The right scan (lines 710-721): nearest index `k > j` whose origin
differs from that of `j`. -/
def lookRight (tags : List Bool) (tj : Bool) (j : ℕ) : Option ℕ :=
  (firstIdx (fun tv => tv != tj) (tags.drop (j + 1))).map (fun i => j + 1 + i)

/-- Contribution of observation `j` to `wate` (lines 697-725): the signed
response differences to the nearest opposite-origin neighbors (sign fixed so
the effect is population 0 minus population 1), weighted by the observation's
weight and halved when both neighbors exist. -/
def contrib (l : List MObs) (j : ℕ) : ℚ :=
  let tags := l.map MObs.tag
  let tj := tags.getD j false
  let dl : ℚ := match lookLeft tags tj j with
    | some k =>
        let raw := (l.getD k default).r - (l.getD j default).r
        if tj then raw else -raw
    | none => 0
  let dr : ℚ := match lookRight tags tj j with
    | some k =>
        let raw := (l.getD k default).r - (l.getD j default).r
        if tj then raw else -raw
    | none => 0
  if (lookLeft tags tj j).isSome ∧ (lookRight tags tj j).isSome
  then (dl + dr) * (l.getD j default).w / 2
  else (dl + dr) * (l.getD j default).w

/-- The loop of lines 696-725: total `wate` over all observations. -/
def wateOf (l : List MObs) : ℚ := ((List.range l.length).map (contrib l)).sum

/-- One round per permutation (lines 682-727): permute the current arrays,
stably sort by score, accumulate `wate / 2` (the division by 2 compensates
for `np.sum(w2) = 2`); the sorted arrays carry over to the next round. -/
def ateRounds (perms : List (List ℕ)) (st : List MObs) : List ℚ :=
  match perms with
  | [] => []
  | p :: ps =>
      let st2 := sortRecs (applyPerm p st)
      (wateOf st2 / 2) :: ateRounds ps st2

/-- ate (lines 630-728): weights are normalized per subpopulation
(`w[j] /= w[j].sum()`, lines 671-672; the `None` default yields the same
uniform result), the records are concatenated with origin tags, and the
rounds' results are averaged. -/
def ateModel (r0 s0 w0 r1 s1 w1 : List ℚ) (perms : List (List ℕ)) : ℚ :=
  let w0n := w0.map (· / w0.sum)
  let w1n := w1.map (· / w1.sum)
  let init := tagRecs r0 s0 w0n false ++ tagRecs r1 s1 w1n true
  (ateRounds perms init).sum / perms.length

/-- Origin-tag flip of a record (swapping the roles of the populations). -/
def flipRec (x : MObs) : MObs := ⟨x.s, x.r, x.w, !x.tag⟩

/-! ### Lemmas for the ate antisymmetry -/

theorem firstIdx_map_not (c : Bool) : ∀ (l : List Bool),
    firstIdx (fun tv => tv != !c) (l.map not) = firstIdx (fun tv => tv != c) l := by
  intro l
  induction l with
  | nil => rfl
  | cons x xs ih =>
    simp only [List.map_cons, firstIdx]
    have hx : ((!x) != !c) = (x != c) := by cases x <;> cases c <;> rfl
    simp only [hx, ih]

theorem firstIdx_lt (p : Bool → Bool) : ∀ (l : List Bool) (i : ℕ),
    firstIdx p l = some i → i < l.length := by
  intro l
  induction l with
  | nil => intro i h; simp [firstIdx] at h
  | cons x xs ih =>
    intro i h
    simp only [firstIdx] at h
    by_cases hp : p x
    · rw [if_pos hp] at h
      cases h
      simp
    · rw [if_neg hp] at h
      cases hfi : firstIdx p xs with
      | none => rw [hfi] at h; simp at h
      | some i2 =>
        rw [hfi] at h
        simp only [Option.map_some', Option.some.injEq] at h
        have := ih i2 hfi
        simp only [List.length_cons]
        omega

theorem lookLeft_lt (tags : List Bool) (tj : Bool) (j k : ℕ)
    (h : lookLeft tags tj j = some k) : k < j := by
  unfold lookLeft at h
  cases hfi : firstIdx (fun tv => tv != tj) ((tags.take j).reverse) with
  | none => rw [hfi] at h; simp at h
  | some i =>
    rw [hfi] at h
    simp only [Option.map_some', Option.some.injEq] at h
    have hi := firstIdx_lt _ _ _ hfi
    simp only [List.length_reverse, List.length_take] at hi
    omega

theorem lookRight_lt (tags : List Bool) (tj : Bool) (j k : ℕ)
    (h : lookRight tags tj j = some k) : k < tags.length := by
  unfold lookRight at h
  cases hfi : firstIdx (fun tv => tv != tj) (tags.drop (j + 1)) with
  | none => rw [hfi] at h; simp at h
  | some i =>
    rw [hfi] at h
    simp only [Option.map_some', Option.some.injEq] at h
    have hi := firstIdx_lt _ _ _ hfi
    simp only [List.length_drop] at hi
    omega

theorem getD_map_flip_r (l : List MObs) (k : ℕ) (hk : k < l.length) :
    ((l.map flipRec).getD k default).r = (l.getD k default).r := by
  rw [List.getD_eq_getElem _ _ (by simpa using hk), List.getD_eq_getElem _ _ hk,
    List.getElem_map]
  rfl

theorem getD_map_flip_w (l : List MObs) (k : ℕ) (hk : k < l.length) :
    ((l.map flipRec).getD k default).w = (l.getD k default).w := by
  rw [List.getD_eq_getElem _ _ (by simpa using hk), List.getD_eq_getElem _ _ hk,
    List.getElem_map]
  rfl

theorem contrib_flip (l : List MObs) (j : ℕ) (hj : j < l.length) :
    contrib (l.map flipRec) j = - contrib l j := by
  have htags : (l.map flipRec).map MObs.tag = (l.map MObs.tag).map not := by
    rw [List.map_map, List.map_map]
    rfl
  have hjt : j < (l.map MObs.tag).length := by simpa using hj
  have htj : ((l.map MObs.tag).map not).getD j false
      = !((l.map MObs.tag).getD j false) := by
    rw [List.getD_eq_getElem _ _ (by simpa using hjt), List.getD_eq_getElem _ _ hjt,
      List.getElem_map]
  have hLL : lookLeft ((l.map MObs.tag).map not) (!((l.map MObs.tag).getD j false)) j
      = lookLeft (l.map MObs.tag) ((l.map MObs.tag).getD j false) j := by
    unfold lookLeft
    rw [← List.map_take, ← List.map_reverse, firstIdx_map_not]
  have hLR : lookRight ((l.map MObs.tag).map not) (!((l.map MObs.tag).getD j false)) j
      = lookRight (l.map MObs.tag) ((l.map MObs.tag).getD j false) j := by
    unfold lookRight
    rw [← List.map_drop, firstIdx_map_not]
  have hrj := getD_map_flip_r l j hj
  have hwj := getD_map_flip_w l j hj
  unfold contrib
  dsimp only
  rw [htags, htj, hLL, hLR, hrj, hwj]
  cases hL : lookLeft (l.map MObs.tag) ((l.map MObs.tag).getD j false) j with
  | none =>
    cases hR : lookRight (l.map MObs.tag) ((l.map MObs.tag).getD j false) j with
    | none => simp
    | some k =>
      have hkl : k < l.length := by simpa using lookRight_lt _ _ _ _ hR
      have hrk := getD_map_flip_r l k hkl
      simp only [Option.isSome_none, Option.isSome_some, hrk]
      cases hc : (l.map MObs.tag).getD j false <;> simp <;> ring
  | some k =>
    have hkl : k < l.length := lt_trans (lookLeft_lt _ _ _ _ hL) hj
    have hrk := getD_map_flip_r l k hkl
    cases hR : lookRight (l.map MObs.tag) ((l.map MObs.tag).getD j false) j with
    | none =>
      simp only [Option.isSome_none, Option.isSome_some, hrk]
      cases hc : (l.map MObs.tag).getD j false <;> simp <;> ring
    | some k2 =>
      have hk2l : k2 < l.length := by simpa using lookRight_lt _ _ _ _ hR
      have hrk2 := getD_map_flip_r l k2 hk2l
      simp only [Option.isSome_some, hrk, hrk2]
      cases hc : (l.map MObs.tag).getD j false <;> simp <;> ring

theorem sum_map_neg_q (l : List ℚ) : (l.map Neg.neg).sum = -l.sum := by
  induction l with
  | nil => simp
  | cons x xs ih => simp [ih]; ring

theorem wateOf_flip (l : List MObs) : wateOf (l.map flipRec) = - wateOf l := by
  unfold wateOf
  rw [List.length_map]
  have hmap : (List.range l.length).map (contrib (l.map flipRec))
      = (List.range l.length).map (fun j => -(contrib l j)) := by
    apply List.map_congr_left
    intro j hjmem
    exact contrib_flip l j (List.mem_range.mp hjmem)
  rw [hmap]
  have h2 : (List.range l.length).map (fun j => -(contrib l j))
      = ((List.range l.length).map (contrib l)).map Neg.neg := by
    rw [List.map_map]
    rfl
  rw [h2, sum_map_neg_q]

theorem orderedInsert_map_flip (x : MObs) : ∀ (l : List MObs),
    List.orderedInsert scoreLE (flipRec x) (l.map flipRec)
      = (List.orderedInsert scoreLE x l).map flipRec := by
  intro l
  induction l with
  | nil => rfl
  | cons y ys ih =>
    simp only [List.map_cons, List.orderedInsert]
    by_cases h : scoreLE x y
    · have h2 : scoreLE (flipRec x) (flipRec y) := h
      rw [if_pos h, if_pos h2]
      simp
    · have h2 : ¬ scoreLE (flipRec x) (flipRec y) := h
      rw [if_neg h, if_neg h2, ih]
      simp

theorem sortRecs_map_flip : ∀ (l : List MObs),
    sortRecs (l.map flipRec) = (sortRecs l).map flipRec := by
  intro l
  induction l with
  | nil => rfl
  | cons x xs ih =>
    unfold sortRecs at ih ⊢
    simp only [List.map_cons, List.insertionSort]
    rw [ih, orderedInsert_map_flip]

theorem sorted_perm_eq_of_nodup : ∀ (l1 l2 : List MObs), l1.Perm l2 →
    List.Pairwise scoreLE l1 → List.Pairwise scoreLE l2 →
    (l1.map MObs.s).Nodup → l1 = l2 := by
  intro l1
  induction l1 with
  | nil =>
    intro l2 hperm _ _ _
    exact (List.Perm.nil_eq hperm).symm ▸ rfl
  | cons x t1 ih =>
    intro l2 hperm hp1 hp2 hnd
    have hndc : x.s ∉ t1.map MObs.s ∧ (t1.map MObs.s).Nodup := by
      rw [List.map_cons] at hnd
      exact List.nodup_cons.mp hnd
    have hx2 : x ∈ l2 := hperm.mem_iff.mp (by simp)
    cases l2 with
    | nil => simp at hx2
    | cons y t2 =>
      have hxy : x = y := by
        by_contra hne
        have hxt2 : x ∈ t2 := by
          rcases List.mem_cons.mp hx2 with h | h
          · exact absurd h hne
          · exact h
        have hy1 : y ∈ x :: t1 := hperm.symm.mem_iff.mp (by simp)
        have hyt1 : y ∈ t1 := by
          rcases List.mem_cons.mp hy1 with h | h
          · exact absurd h.symm hne
          · exact h
        have hxs : x.s ≤ y.s := (List.pairwise_cons.mp hp1).1 y hyt1
        have hys : y.s ≤ x.s := (List.pairwise_cons.mp hp2).1 x hxt2
        have hseq : y.s = x.s := le_antisymm hys hxs
        exact hndc.1 (hseq ▸ List.mem_map_of_mem MObs.s hyt1)
      subst hxy
      have hperm2 : t1.Perm t2 := hperm.cons_inv
      have ht12 : t1 = t2 := ih t2 hperm2 (List.pairwise_cons.mp hp1).2
        (List.pairwise_cons.mp hp2).2 hndc.2
      rw [ht12]

theorem sortRecs_perm (l : List MObs) : (sortRecs l).Perm l :=
  List.perm_insertionSort scoreLE l

theorem sortRecs_sorted (l : List MObs) : List.Pairwise scoreLE (sortRecs l) :=
  List.sorted_insertionSort scoreLE l

theorem sortRecs_eq_of_perm (l1 l2 : List MObs) (hperm : l1.Perm l2)
    (hnd : (l1.map MObs.s).Nodup) : sortRecs l1 = sortRecs l2 := by
  apply sorted_perm_eq_of_nodup
  · exact ((sortRecs_perm l1).trans hperm).trans (sortRecs_perm l2).symm
  · exact sortRecs_sorted l1
  · exact sortRecs_sorted l2
  · exact ((sortRecs_perm l1).map MObs.s).nodup_iff.mpr hnd

theorem map_getD_range (l : List MObs) :
    (List.range l.length).map (fun i => l.getD i default) = l := by
  induction l with
  | nil => simp
  | cons x xs ih =>
    rw [List.length_cons, List.range_succ_eq_map, List.map_cons, List.map_map]
    have hcomp : ((fun i => (x :: xs).getD i default) ∘ Nat.succ)
        = fun i => xs.getD i default := by
      funext i
      simp [List.getD_cons_succ]
    rw [hcomp, ih]
    simp [List.getD_cons_zero]

theorem applyPerm_perm (p : List ℕ) (l : List MObs)
    (hp : p.Perm (List.range l.length)) : (applyPerm p l).Perm l := by
  unfold applyPerm
  have h := hp.map (fun i => l.getD i default)
  rw [map_getD_range] at h
  exact h

theorem sortRecs_length (l : List MObs) : (sortRecs l).length = l.length :=
  (sortRecs_perm l).length_eq

theorem map_s_flip (l : List MObs) : (l.map flipRec).map MObs.s = l.map MObs.s := by
  rw [List.map_map]
  rfl

theorem ateRounds_flip : ∀ (perms : List (List ℕ)) (st1 st2 : List MObs) (n : ℕ),
    st1.length = n → st2.length = n →
    st2.Perm (st1.map flipRec) →
    (st1.map MObs.s).Nodup →
    (∀ p ∈ perms, p.Perm (List.range n)) →
    ateRounds perms st2 = (ateRounds perms st1).map Neg.neg := by
  intro perms
  induction perms with
  | nil => intro st1 st2 n _ _ _ _ _; rfl
  | cons p ps ih =>
    intro st1 st2 n h1 h2 hperm hnd hps
    have hp : p.Perm (List.range n) := hps p (by simp)
    have hplen : p.length = n := by simpa using hp.length_eq
    have hap1 : (applyPerm p st1).Perm st1 := applyPerm_perm p st1 (h1 ▸ hp)
    have hap2 : (applyPerm p st2).Perm st2 := applyPerm_perm p st2 (h2 ▸ hp)
    have hnd1p : ((applyPerm p st1).map MObs.s).Nodup :=
      ((hap1.map MObs.s).nodup_iff).mpr hnd
    have hkey : sortRecs (applyPerm p st2) = (sortRecs (applyPerm p st1)).map flipRec := by
      have hchain : (applyPerm p st2).Perm ((applyPerm p st1).map flipRec) :=
        hap2.trans (hperm.trans (hap1.map flipRec).symm)
      have hnd2 : ((applyPerm p st2).map MObs.s).Nodup := by
        refine ((hap2.map MObs.s).trans ?_).nodup_iff.mpr hnd
        have hmf := hperm.map MObs.s
        rw [map_s_flip] at hmf
        exact hmf
      calc sortRecs (applyPerm p st2)
          = sortRecs ((applyPerm p st1).map flipRec) :=
            sortRecs_eq_of_perm _ _ hchain hnd2
        _ = (sortRecs (applyPerm p st1)).map flipRec := sortRecs_map_flip _
    show (wateOf (sortRecs (applyPerm p st2)) / 2)
          :: ateRounds ps (sortRecs (applyPerm p st2))
        = ((wateOf (sortRecs (applyPerm p st1)) / 2)
          :: ateRounds ps (sortRecs (applyPerm p st1))).map Neg.neg
    rw [hkey, wateOf_flip, List.map_cons]
    refine congrArg₂ List.cons (by ring) ?_
    refine ih (sortRecs (applyPerm p st1)) ((sortRecs (applyPerm p st1)).map flipRec) n
      ?_ ?_ (List.Perm.refl _) ?_ ?_
    · rw [sortRecs_length]
      unfold applyPerm
      rw [List.length_map, hplen]
    · rw [List.length_map, sortRecs_length]
      unfold applyPerm
      rw [List.length_map, hplen]
    · refine (((sortRecs_perm (applyPerm p st1)).map MObs.s).trans ?_).nodup_iff.mpr hnd
      exact hap1.map MObs.s
    · intro q hq
      exact hps q (List.mem_cons_of_mem p hq)

theorem tagRecs_length (rs ss ws : List ℚ) (tg : Bool) (h1 : rs.length = ss.length)
    (h2 : ws.length = ss.length) : (tagRecs rs ss ws tg).length = ss.length := by
  unfold tagRecs
  rw [List.length_zipWith, List.length_zip, h1, h2]
  omega

theorem tagRecs_map_s : ∀ (ss rs ws : List ℚ) (tg : Bool), rs.length = ss.length →
    ws.length = ss.length → (tagRecs rs ss ws tg).map MObs.s = ss := by
  intro ss
  induction ss with
  | nil => intro rs ws tg _ _; rfl
  | cons a ss2 ih =>
    intro rs ws tg h1 h2
    cases rs with
    | nil => simp at h1
    | cons rv rs2 =>
      cases ws with
      | nil => simp at h2
      | cons wv ws2 =>
        simp only [tagRecs, List.zip_cons_cons, List.zipWith_cons_cons, List.map_cons]
        refine congrArg₂ List.cons rfl ?_
        have := ih rs2 ws2 tg (by simpa using h1) (by simpa using h2)
        simpa [tagRecs] using this

theorem tagRecs_map_flip (rs ss ws : List ℚ) (tg : Bool) :
    (tagRecs rs ss ws tg).map flipRec = tagRecs rs ss ws (!tg) := by
  unfold tagRecs
  rw [List.map_zipWith]
  rfl

/-- C5 (amended): when the combined score multiset has no ties, `ate` is
antisymmetric for any fixed permutation sequence replayed identically:
`ate(popB, popA) = -ate(popA, popB)`.  (With tied scores the identically
replayed permutations act on differently concatenated arrays, so the stable
sort can break ties differently and exact antisymmetry can fail — see the
counterexample.) -/
theorem ate_antisymm_distinct_scores (r0 s0 w0 r1 s1 w1 : List ℚ)
    (perms : List (List ℕ))
    (hl0r : r0.length = s0.length) (hl0w : w0.length = s0.length)
    (hl1r : r1.length = s1.length) (hl1w : w1.length = s1.length)
    (hnodup : (s0 ++ s1).Nodup)
    (hperms : ∀ p ∈ perms, p.Perm (List.range (s0.length + s1.length))) :
    ateModel r1 s1 w1 r0 s0 w0 perms = - ateModel r0 s0 w0 r1 s1 w1 perms := by
  unfold ateModel
  dsimp only
  have hw0n : (w0.map (· / w0.sum)).length = s0.length := by
    rw [List.length_map, hl0w]
  have hw1n : (w1.map (· / w1.sum)).length = s1.length := by
    rw [List.length_map, hl1w]
  have hlen1 : (tagRecs r0 s0 (w0.map (· / w0.sum)) false
      ++ tagRecs r1 s1 (w1.map (· / w1.sum)) true).length = s0.length + s1.length := by
    rw [List.length_append, tagRecs_length _ _ _ _ hl0r hw0n,
      tagRecs_length _ _ _ _ hl1r hw1n]
  have hlen2 : (tagRecs r1 s1 (w1.map (· / w1.sum)) false
      ++ tagRecs r0 s0 (w0.map (· / w0.sum)) true).length = s0.length + s1.length := by
    rw [List.length_append, tagRecs_length _ _ _ _ hl1r hw1n,
      tagRecs_length _ _ _ _ hl0r hw0n]
    omega
  have hmapflip : (tagRecs r0 s0 (w0.map (· / w0.sum)) false
        ++ tagRecs r1 s1 (w1.map (· / w1.sum)) true).map flipRec
      = tagRecs r0 s0 (w0.map (· / w0.sum)) true
        ++ tagRecs r1 s1 (w1.map (· / w1.sum)) false := by
    rw [List.map_append, tagRecs_map_flip, tagRecs_map_flip]
    rfl
  have hperm : (tagRecs r1 s1 (w1.map (· / w1.sum)) false
        ++ tagRecs r0 s0 (w0.map (· / w0.sum)) true).Perm
      ((tagRecs r0 s0 (w0.map (· / w0.sum)) false
        ++ tagRecs r1 s1 (w1.map (· / w1.sum)) true).map flipRec) := by
    rw [hmapflip]
    exact List.perm_append_comm
  have hnd : ((tagRecs r0 s0 (w0.map (· / w0.sum)) false
      ++ tagRecs r1 s1 (w1.map (· / w1.sum)) true).map MObs.s).Nodup := by
    rw [List.map_append, tagRecs_map_s _ _ _ _ hl0r hw0n, tagRecs_map_s _ _ _ _ hl1r hw1n]
    exact hnodup
  have hrounds := ateRounds_flip perms
    (tagRecs r0 s0 (w0.map (· / w0.sum)) false ++ tagRecs r1 s1 (w1.map (· / w1.sum)) true)
    (tagRecs r1 s1 (w1.map (· / w1.sum)) false ++ tagRecs r0 s0 (w0.map (· / w0.sum)) true)
    (s0.length + s1.length) hlen1 hlen2 hperm hnd hperms
  rw [hrounds, sum_map_neg_q, neg_div]

/-- C5 (counterexample): with tied scores the claim fails.  Subpopulation A
is one observation `(score 0, response 0)`; subpopulation B is two
observations `(0, 1)` and `(0, 0)`; weights are uniform and the single
replayed permutation is the identity on the three indices.  Then
`ate(A, B) = -3/4` but `ate(B, A) = 1/4 ≠ 3/4`: the identity permutation
leaves A's observation before B's in one concatenation and after them in the
other, and the stable sort preserves those different tie orders. -/
theorem ate_antisymm_cex :
    ateModel [1, 0] [0, 0] [1, 1] [0] [0] [1] [[0, 1, 2]]
      ≠ - ateModel [0] [0] [1] [1, 0] [0, 0] [1, 1] [[0, 1, 2]] := by
  have hBA : ateModel [1, 0] [0, 0] [1, 1] [0] [0] [1] [[0, 1, 2]] = 1/4 := by
    norm_num [ateModel, ateRounds, wateOf, contrib, lookLeft, lookRight, firstIdx,
      sortRecs, applyPerm, tagRecs, List.insertionSort, List.orderedInsert, scoreLE,
      List.range_succ]
  have hAB : ateModel [0] [0] [1] [1, 0] [0, 0] [1, 1] [[0, 1, 2]] = -(3/4) := by
    norm_num [ateModel, ateRounds, wateOf, contrib, lookLeft, lookRight, firstIdx,
      sortRecs, applyPerm, tagRecs, List.insertionSort, List.orderedInsert, scoreLE,
      List.range_succ]
  rw [hBA, hAB]
  norm_num

theorem ate_antisymm_distinct_scores_witness :
    ([(1 : ℚ)] ++ [(2 : ℚ), 3]).Nodup ∧
    (∀ p ∈ [[2, 0, 1]], List.Perm p (List.range 3)) ∧
    ateModel [7, 9] [2, 3] [1, 1] [5] [1] [1] [[2, 0, 1]]
      = - ateModel [5] [1] [1] [7, 9] [2, 3] [1, 1] [[2, 0, 1]] := by
  have hnd : ([(1 : ℚ)] ++ [(2 : ℚ), 3]).Nodup := by norm_num
  have hps : ∀ p ∈ [[2, 0, 1]], List.Perm p (List.range 3) := by
    intro p hp
    simp only [List.mem_singleton] at hp
    subst hp
    decide
  refine ⟨hnd, hps, ?_⟩
  exact ate_antisymm_distinct_scores [5] [1] [1] [7, 9] [2, 3] [1, 1] [[2, 0, 1]]
    rfl rfl rfl rfl hnd hps

end CumBioStats
